import Mathlib

/-!
Verification of the covered-call GARCH recommendation engine.

Each Python module of the repository is shallowly embedded as Lean
definitions over `ℝ` (for the float/transcendental parts) or `ℚ`
(for the purely arithmetic parts), and the spec's claims are settled
as theorems about those definitions.
-/

set_option maxHeartbeats 1000000

open scoped Classical

namespace CoveredCalls


/-! ## `src/montecarlo/breach.py` -/

/-- `brownian_bridge_touch(S_start, S_end, Barrier, sigma, dt)`:
probability of touching `Barrier` in `(0, dt)` given start and end,
assuming GBM locally.  Mirrors the source: the already-touched guard
first, then the `sigma < 1e-9` guard, then the log-space bridge
formula `exp(-2 (b-x0)(b-xT) / (sigma^2 dt))`. -/
noncomputable def brownian_bridge_touch (S_start S_end Barrier sigma dt : ℝ) : ℝ :=
  if S_start ≥ Barrier ∨ S_end ≥ Barrier then 1
  else if sigma < 1e-9 then 0
  else
    Real.exp (-2 * (Real.log Barrier - Real.log S_start) *
      (Real.log Barrier - Real.log S_end) / (sigma ^ 2 * dt))

/-- Discrete maximum of a path, as computed by the `path_max` scan in
`_bridge_loop` (`-inf` start, strict improvement); `0` for the empty
path, which never occurs for a simulated price matrix. -/
def pathMaxD : List ℝ → ℝ
  | [] => 0
  | p :: rest => rest.foldl max p

/-- Terminal price `prices[i, -1]` of one path (0 for an empty row,
which never occurs). -/
def finalPrice (path : List ℝ) : ℝ := path.getLastD 0

/-- Per-path touch probability of `_bridge_loop`: 1.0 if the discrete
maximum already reaches the strike, else the Brownian-bridge
probability conditioned on the path's start (`prices[i,0]`) and end
(`prices[i,-1]`). -/
noncomputable def pathTouchProb (path : List ℝ) (strike vol_annual T_years : ℝ) : ℝ :=
  match path with
  | [] => 0
  | p :: rest =>
    if pathMaxD (p :: rest) ≥ strike then 1
    else brownian_bridge_touch p (finalPrice (p :: rest)) strike vol_annual T_years

/-- `_bridge_loop(prices, strike, T_years, vol_annual)`: mean of the
per-path touch probabilities. -/
noncomputable def bridge_loop (prices : List (List ℝ)) (strike T_years vol_annual : ℝ) : ℝ :=
  (prices.map (fun path => pathTouchProb path strike vol_annual T_years)).sum
    / prices.length

/-- `calculate_probabilities(prices, strike, T_years, vol_daily)`:
terminal OTM probability `1 - mean(final > strike)`, its binomial
standard error, and the bridge-corrected touch probability using
`vol_annual = vol_daily * sqrt(365)`. -/
noncomputable def calculate_probabilities (prices : List (List ℝ))
    (strike T_years vol_daily : ℝ) : ℝ × ℝ × ℝ :=
  let n_paths : ℝ := prices.length
  let p_itm : ℝ := (prices.countP (fun r => decide (finalPrice r > strike)) : ℕ) / n_paths
  let p_otm : ℝ := 1 - p_itm
  let se_otm : ℝ := Real.sqrt (p_otm * (1 - p_otm) / n_paths)
  let vol_annual := vol_daily * Real.sqrt 365
  let p_touch := bridge_loop prices strike T_years vol_annual
  (p_otm, se_otm, p_touch)

/-! ## `src/options/greeks.py` -/

/-- Standard normal cumulative distribution function `Φ` (scipy's
`norm.cdf`), taken as the CDF of the standard Gaussian measure. -/
noncomputable def normCdf (x : ℝ) : ℝ :=
  ProbabilityTheory.cdf (ProbabilityTheory.gaussianReal 0 1) x

/-- `calculate_delta(spot, strike, time_to_maturity, risk_free, vol)`:
Black-Scholes call delta with the source's guards — 0 for non-positive
time to maturity, the step-function limit for non-positive vol,
otherwise `Φ(d1)`. -/
noncomputable def calculate_delta (spot strike time_to_maturity risk_free vol : ℝ) : ℝ :=
  if time_to_maturity ≤ 0 then 0
  else if vol ≤ 0 then (if spot > strike then 1 else 0)
  else
    normCdf ((Real.log (spot / strike) + (risk_free + 0.5 * vol ^ 2) * time_to_maturity)
      / (vol * Real.sqrt time_to_maturity))

/-! ## `src/models/garch.py` -/

/-- Fitted GJR-GARCH(1,1,1) parameters read off `self.res.params` in
`simulate_paths` (the Student-t degrees of freedom `nu` only
parametrizes the innovation draw, which enters here as the explicit
innovation matrix `z`). -/
structure GarchParams where
  omega : ℝ
  alpha : ℝ
  gamma : ℝ
  beta : ℝ

/-- One path of scaled log-returns `eps/100`, driven by the innovation
row `zrow` through the GJR-GARCH variance recursion
`h' = omega + (alpha + gamma*1{eps<0})*eps^2 + beta*h`. -/
noncomputable def pathLogRets (par : GarchParams) : ℝ → List ℝ → List ℝ
  | _, [] => []
  | h, zt :: rest =>
    let eps := zt * Real.sqrt h
    let I : ℝ := if eps < 0 then 1 else 0
    (eps / 100) ::
      pathLogRets par (par.omega + (par.alpha + par.gamma * I) * eps ^ 2 + par.beta * h) rest

/-- Final conditional variance of one path after all updates (the
per-path entry of `current_vol_sq` when the loop ends). -/
noncomputable def finalVariance (par : GarchParams) : ℝ → List ℝ → ℝ
  | h, [] => h
  | h, zt :: rest =>
    let eps := zt * Real.sqrt h
    let I : ℝ := if eps < 0 then 1 else 0
    finalVariance par (par.omega + (par.alpha + par.gamma * I) * eps ^ 2 + par.beta * h) rest

/-- Running prefix sums (`np.cumsum`). -/
def cumsum : List ℝ → ℝ → List ℝ
  | [], _ => []
  | x :: xs, acc => (acc + x) :: cumsum xs (acc + x)

/-- `simulate_paths(n_days, n_paths, current_price)` of `GarchModel`:
prices are `current_price * exp(cumsum(log_ret))` with `current_price`
prepended as column 0, plus the final volatility vector
`sqrt(current_vol_sq)/100`.  The innovation matrix `z` is the draw
`np.random.standard_t(nu, size=(n_paths, n_days))`: the source takes
no seed argument and reads numpy's global generator, so the draw is an
explicit input of the embedding rather than a function of the declared
arguments. -/
noncomputable def simulate_paths (par : GarchParams) (last_vol current_price : ℝ)
    (z : List (List ℝ)) : List (List ℝ) × List ℝ :=
  (z.map (fun zrow =>
      current_price :: (cumsum (pathLogRets par (last_vol ^ 2) zrow) 0).map
        (fun s => current_price * Real.exp s)),
   z.map (fun zrow => Real.sqrt (finalVariance par (last_vol ^ 2) zrow) / 100))

/-! ## `src/options/cleaning.py` -/

/-- One option-chain record as `clean_options` sees it.  Fields that
may be NaN in the raw feed are `Option ℚ` (`none` = NaN; a missing
`lastPrice` column is `none` in every row); `mid`, `spread` and
`rel_spread` are (re)computed by the cleaner. -/
structure ChainRow where
  strike : ℚ
  bid : Option ℚ
  ask : Option ℚ
  lastPrice : Option ℚ
  openInterest : Option ℚ
  mid : Option ℚ
  spread : Option ℚ
  rel_spread : Option ℚ
deriving DecidableEq

/-- Per-row preparation of `clean_options`: `fillna(0)` on the quote
columns, the lastPrice fallback when `bid ≤ 0 & ask ≤ 0 &
lastPrice > 0`, and computation of `mid`, `spread`, `rel_spread`. -/
def prepRow (r : ChainRow) : ChainRow :=
  let oi := r.openInterest.getD 0
  let bid0 := r.bid.getD 0
  let ask0 := r.ask.getD 0
  let last := r.lastPrice.getD 0
  let bid := if bid0 ≤ 0 ∧ ask0 ≤ 0 ∧ last > 0 then last else bid0
  let ask := if bid0 ≤ 0 ∧ ask0 ≤ 0 ∧ last > 0 then last else ask0
  let mid := (bid + ask) / 2
  let spread := ask - bid
  let rel := if mid > 0 then spread / mid else 0
  { strike := r.strike, bid := some bid, ask := some ask, lastPrice := some last,
    openInterest := some oi, mid := some mid, spread := some spread,
    rel_spread := some rel }

/-- Combined row mask of `clean_options`: bid exists, ask exists,
quote not crossed, minimum mid price, minimum open interest. -/
def keepRow (min_oi min_mid : ℚ) (r : ChainRow) : Bool :=
  decide (r.bid.getD 0 > 0) && decide (r.ask.getD 0 > 0)
    && decide (r.bid.getD 0 ≤ r.ask.getD 0)
    && decide (r.mid.getD 0 ≥ min_mid) && decide (r.openInterest.getD 0 ≥ min_oi)

/-- `clean_options(df, min_oi, min_mid)`: prepare every row, then keep
the rows passing the combined mask. -/
def clean_options (df : List ChainRow) (min_oi min_mid : ℚ) : List ChainRow :=
  (df.map prepRow).filter (keepRow min_oi min_mid)

/-! ## `src/features/resistance.py` — the sort-and-greedy-merge clustering step -/

/-- One raw resistance level `{'level', 'type', 'strength'}`. -/
structure RawLevel where
  level : ℚ
  type : String
  strength : ℚ
deriving DecidableEq

/-- `_merge_cluster(cluster)`: a singleton cluster is returned
unchanged; otherwise the strength-weighted average level, the
`'+'`-joined labels, and the summed strength. -/
def merge_cluster (cluster : List RawLevel) : RawLevel :=
  match cluster with
  | [item] => item
  | _ =>
    { level := (cluster.map (fun i => i.level * i.strength)).sum
        / (cluster.map (fun i => i.strength)).sum,
      type := String.intercalate "+" (cluster.map (fun i => i.type)),
      strength := (cluster.map (fun i => i.strength)).sum }

/-- The greedy grouping loop of `detect_resistance`: `revCur` is the
current cluster in reverse order (its head is `current_cluster[-1]`,
the member the relative gap is measured against). -/
def clusterLoop (zw : ℚ) (revCur : List RawLevel) : List RawLevel → List (List RawLevel)
  | [] => [revCur.reverse]
  | curr :: rest =>
    match revCur with
    | [] => clusterLoop zw [curr] rest
    | prev :: _ =>
      if (curr.level - prev.level) / prev.level ≤ zw then
        clusterLoop zw (curr :: revCur) rest
      else
        revCur.reverse :: clusterLoop zw [curr] rest

/-- Boolean ascending-level comparison used for the sorts
(`raw_levels.sort(key=lambda x: x['level'])` and
`df.sort_values('level')`, both stable in the source). -/
def levelLe (a b : RawLevel) : Bool := decide (a.level ≤ b.level)

/-- Ascending-level relation, the propositional form of `levelLe`. -/
def levelLeP (a b : RawLevel) : Prop := a.level ≤ b.level

/-- The clustering step of `detect_resistance(...)`: sort ascending by
level, greedily group consecutive levels whose relative gap from the
previous cluster member is ≤ `zone_width`, merge each group, and sort
the merged frame by level. -/
def detect_resistance_cluster (raw_levels : List RawLevel) (zone_width : ℚ) : List RawLevel :=
  let sorted := raw_levels.mergeSort levelLe
  match sorted with
  | [] => []
  | first :: rest =>
    ((clusterLoop zone_width [first] rest).map merge_cluster).mergeSort levelLe

/-- Relative gap strictly above the zone width: the condition that
separates two consecutive clusters. -/
def gapGT (zw : ℚ) (a b : RawLevel) : Prop := zw < (b.level - a.level) / a.level

/-- A concrete already-clustered resistance set used to instantiate the
idempotence theorem. -/
def sampleLevels : List RawLevel :=
  [{ level := 100, type := "20d_high", strength := 1 },
   { level := 103, type := "SMA_20", strength := 4/5 },
   { level := 110, type := "SMA_50", strength := 4/5 }]

/-! ## `src/optimizer/choose_strike.py` (with `src/options/iv_surface.py`) -/

/-- One option quote row as `select_strike` reads it; `rel_spread` and
`openInterest` may be NaN in the frame, hence `Option`. -/
structure OptRow where
  side : String
  strike : ℝ
  expiration : String
  bid : ℝ
  ask : ℝ
  mid : ℝ
  spread : ℝ
  rel_spread : Option ℝ
  openInterest : Option ℝ
  impliedVolatility : ℝ
  dte : ℝ
  underlying_price : ℝ

/-- The configuration fields `select_strike` consumes. -/
structure StratConfig where
  min_oi : ℝ
  p_target_min : ℝ
  touch_cap : ℝ
  max_delta : ℝ
  commission_fee : ℝ
  min_premium_abs : ℝ
  liquidity_spread_thresh : ℝ
  liquidity_crossing_factor : ℝ
  lambda_res : ℝ
  lambda_risk : ℝ

/-- One row of the resistance DataFrame as the optimizer reads it. -/
structure ResRow where
  level : ℝ
  strength : ℝ

/-- SVI raw parameters `(a, b, rho, m, sigma)` for one expiry. -/
structure SviParams where
  a : ℝ
  b : ℝ
  rho : ℝ
  m : ℝ
  sigma : ℝ

/-- `svi_raw(k, a, b, rho, m, sigma)`: total variance at
log-moneyness `k`. -/
noncomputable def svi_raw (k : ℝ) (p : SviParams) : ℝ :=
  p.a + p.b * (p.rho * (k - p.m) + Real.sqrt ((k - p.m) ^ 2 + p.sigma ^ 2))

/-- `get_iv_from_surface(strike, T, spot, params)` for non-`None`
params: implied vol from total variance, clamped to 0 when the model
variance is negative. -/
noncomputable def get_iv_from_surface (strike T spot : ℝ) (p : SviParams) : ℝ :=
  let k := Real.log (strike / spot)
  let w := svi_raw k p
  if w < 0 then 0 else Real.sqrt (w / T)

/-- The scored candidate record appended for a strike that passes all
gates, carrying every intermediate quantity (the source's `'yield'`
key is `yld` here). -/
structure Candidate where
  strike : ℝ
  expiration : String
  type : String
  bid : ℝ
  ask : ℝ
  mid : ℝ
  effective_price : ℝ
  net_premium : ℝ
  p_otm : ℝ
  p_lcb : ℝ
  p_touch : ℝ
  model_iv : ℝ
  delta : ℝ
  resistance : ℝ
  res_strength : ℝ
  dist_res : ℝ
  yld : ℝ
  score : ℝ

/-- The body of the candidate loop of `select_strike` for one row of
`calls`: `none` when one of the sequential gates rejects the row
(liquidity, zombie quote, wide spread, net premium, missing
probability data, probability LCB, touch cap, delta), otherwise the
scored candidate.  Gate order follows the source. -/
noncomputable def processRow (config : StratConfig) (spot res_level res_strength : ℝ)
    (p_otm_dict : ℝ → Option (ℝ × ℝ × ℝ)) (svi_params : Option SviParams)
    (row : OptRow) : Option Candidate :=
  if row.strike ≤ spot then none
  else if row.openInterest.getD 0 < config.min_oi then none
  else if row.bid < 0.05 then none
  else if row.bid > 0 ∧ (row.ask - row.bid) / row.bid > 0.5 then none
  else
    let rel_spread := (row.rel_spread).getD 0
    let effective_price :=
      if rel_spread < config.liquidity_spread_thresh then row.mid
      else row.bid + config.liquidity_crossing_factor * row.spread
    let gross_premium := effective_price * 100
    let net_premium := gross_premium - config.commission_fee
    if net_premium < config.min_premium_abs then none
    else
      let net_price_per_share := net_premium / 100
      let dte := max row.dte 1
      let yld := (net_price_per_share / spot) * (365 / dte)
      match p_otm_dict row.strike with
      | none => none
      | some (p_otm, p_lcb, p_touch) =>
        if p_lcb < config.p_target_min then none
        else if config.touch_cap ≠ 0 ∧ p_touch > config.touch_cap then none
        else
          let T_years := max row.dte 1 / 365
          let model_iv :=
            match svi_params with
            | some prm => get_iv_from_surface row.strike T_years spot prm
            | none => row.impliedVolatility
          let delta := calculate_delta spot row.strike T_years 0.04 model_iv
          if delta > config.max_delta then none
          else
            let dist_res := |row.strike - res_level|
            some { strike := row.strike, expiration := row.expiration, type := "call",
                   bid := row.bid, ask := row.ask, mid := row.mid,
                   effective_price := effective_price, net_premium := net_premium,
                   p_otm := p_otm, p_lcb := p_lcb, p_touch := p_touch,
                   model_iv := model_iv, delta := delta, resistance := res_level,
                   res_strength := res_strength, dist_res := dist_res, yld := yld,
                   score := yld - config.lambda_res * (dist_res / spot)
                     - config.lambda_risk * delta }

/-- Immediate-resistance selection of `select_strike`: the first
resistance row strictly above spot, or the synthetic
`(spot * 1.10, 1.0)` level when none lies above. -/
noncomputable def resPick (resistance_df : List ResRow) (spot : ℝ) : ℝ × ℝ :=
  match resistance_df.filter (fun r => decide (r.level > spot)) with
  | [] => (spot * 1.10, 1.0)
  | r :: _ => (r.level, r.strength)

/-- The surviving scored candidates of `select_strike`, in row order. -/
noncomputable def passingCandidates (df_opts : List OptRow)
    (p_otm_dict : ℝ → Option (ℝ × ℝ × ℝ)) (resistance_df : List ResRow)
    (config : StratConfig) (svi_params : Option SviParams) : List Candidate :=
  match df_opts.filter (fun r => r.side == "call") with
  | [] => []
  | c0 :: _ =>
    (df_opts.filter (fun r => r.side == "call")).filterMap
      (processRow config c0.underlying_price
        (resPick resistance_df c0.underlying_price).1
        (resPick resistance_df c0.underlying_price).2 p_otm_dict svi_params)

/-- Highest-score selection (`sort_values('score', ascending=False)`
followed by `iloc[0]`; pandas' default quicksort leaves tie order
unspecified, so the embedding keeps the earliest among equal top
scores). -/
noncomputable def bestCandidate : List Candidate → Option Candidate
  | [] => none
  | c :: rest => some (rest.foldl (fun b x => if x.score > b.score then x else b) c)

/-- `select_strike(df_opts, p_otm_dict, resistance_df, config,
svi_params)`.  An empty frame returns `None` (`Except.ok none`); a
nonempty frame with no call rows raises an IndexError in the source
(`calls['underlying_price'].iloc[0]` on an empty frame), modelled as
`Except.error`; otherwise the result is the best-scoring surviving
candidate, or `None` when no row passes every gate. -/
noncomputable def select_strike (df_opts : List OptRow)
    (p_otm_dict : ℝ → Option (ℝ × ℝ × ℝ)) (resistance_df : List ResRow)
    (config : StratConfig) (svi_params : Option SviParams) :
    Except String (Option Candidate) :=
  if df_opts = [] then Except.ok none
  else
    match df_opts.filter (fun r => r.side == "call") with
    | [] => Except.error "single positional indexer is out-of-bounds"
    | _ :: _ =>
      Except.ok (bestCandidate
        (passingCandidates df_opts p_otm_dict resistance_df config svi_params))

/-- Replacing a row's days-to-expiry by `max(dte, 1)`, the flooring
`select_strike` itself applies before every use of `dte`. -/
noncomputable def floorDte (r : OptRow) : OptRow := { r with dte := max r.dte 1 }

/-- A concrete call quote that passes every gate of `select_strike`
under `wCfg` (its zero implied volatility makes the delta the
step-function value 0 for an out-of-the-money strike). -/
noncomputable def wRow : OptRow :=
  { side := "call", strike := 110, expiration := "2026-01-16", bid := 1, ask := 11/10,
    mid := 21/20, spread := 1/10, rel_spread := some 0, openInterest := some 100,
    impliedVolatility := 0, dte := 7, underlying_price := 100 }

/-- A concrete put quote (used to exhibit the put-only slice). -/
noncomputable def pRow : OptRow :=
  { side := "put", strike := 90, expiration := "2026-01-16", bid := 1, ask := 11/10,
    mid := 21/20, spread := 1/10, rel_spread := some 0, openInterest := some 100,
    impliedVolatility := 0, dte := 7, underlying_price := 100 }

/-- The default configuration values of `Config` that `select_strike`
reads. -/
noncomputable def wCfg : StratConfig :=
  { min_oi := 10, p_target_min := 58/100, touch_cap := 1/2, max_delta := 1/2,
    commission_fee := 2, min_premium_abs := 4, liquidity_spread_thresh := 1/20,
    liquidity_crossing_factor := 1/5, lambda_res := 1/2, lambda_risk := 1 }

/-- A concrete probability table with data only for strike 110. -/
noncomputable def wDict : ℝ → Option (ℝ × ℝ × ℝ) :=
  fun k => if k = 110 then some (9/10, 8/10, 3/10) else none

/-! ## Theorems -/

/-- Counting helper: every path is counted either as terminally ITM
(`final > strike`) or as terminally OTM (`final ≤ strike`). -/
theorem countP_itm_add_otm (strike : ℝ) (l : List (List ℝ)) :
    l.countP (fun r => decide (finalPrice r > strike))
      + l.countP (fun r => decide (finalPrice r ≤ strike)) = l.length := by
  induction l with
  | nil => simp
  | cons a t ih =>
    rcases le_or_lt (finalPrice a) strike with h | h
    · simp only [List.countP_cons, decide_eq_true_eq, List.length_cons]
      rw [if_neg (by simpa using not_lt.mpr h), if_pos (by simpa using h)]
      omega
    · simp only [List.countP_cons, decide_eq_true_eq, List.length_cons]
      rw [if_pos (by simpa using h), if_neg (by simpa using not_le.mpr h)]
      omega

/-- C1: for every nonempty simulated price matrix and every strike,
`calculate_probabilities` returns `p_otm` equal to the fraction of
paths whose terminal (last-column) price is ≤ the strike, `se_otm`
equal to `sqrt(p_otm*(1-p_otm)/n_paths)`, and `p_otm` lies in
`[0, 1]`. -/
theorem calculate_probabilities_spec (prices : List (List ℝ)) (strike T_years vol_daily : ℝ)
    (hne : prices ≠ []) :
    (calculate_probabilities prices strike T_years vol_daily).1
        = (prices.countP (fun r => decide (finalPrice r ≤ strike)) : ℕ)
          / (prices.length : ℝ)
    ∧ (calculate_probabilities prices strike T_years vol_daily).2.1
        = Real.sqrt ((calculate_probabilities prices strike T_years vol_daily).1 *
            (1 - (calculate_probabilities prices strike T_years vol_daily).1)
            / (prices.length : ℝ))
    ∧ 0 ≤ (calculate_probabilities prices strike T_years vol_daily).1
    ∧ (calculate_probabilities prices strike T_years vol_daily).1 ≤ 1 := by
  have hn : (0 : ℝ) < (prices.length : ℝ) := by
    exact_mod_cast List.length_pos.mpr hne
  have key := countP_itm_add_otm strike prices
  have keyR : ((prices.countP (fun r => decide (finalPrice r > strike)) : ℕ) : ℝ)
      + ((prices.countP (fun r => decide (finalPrice r ≤ strike)) : ℕ) : ℝ)
      = (prices.length : ℝ) := by exact_mod_cast key
  have hle : ((prices.countP (fun r => decide (finalPrice r > strike)) : ℕ) : ℝ)
      ≤ (prices.length : ℝ) := by
    exact_mod_cast List.countP_le_length _
  refine ⟨?_, ?_, ?_, ?_⟩
  · show (1 : ℝ) - _ / _ = _ / _
    field_simp
    linarith
  · rfl
  · show (0 : ℝ) ≤ 1 - _ / _
    have : ((prices.countP (fun r => decide (finalPrice r > strike)) : ℕ) : ℝ)
        / (prices.length : ℝ) ≤ 1 := by
      rw [div_le_one hn]; exact hle
    norm_num
    linarith
  · show (1 : ℝ) - _ / _ ≤ 1
    have : (0 : ℝ) ≤ ((prices.countP (fun r => decide (finalPrice r > strike)) : ℕ) : ℝ)
        / (prices.length : ℝ) := by positivity
    norm_num
    linarith

/-- Witness for C1: on the one-path matrix `[[1, 2]]` with strike 5,
the returned `p_otm` is the counted fraction and lies in `[0, 1]`. -/
theorem calculate_probabilities_spec_witness :
    (calculate_probabilities [[(1 : ℝ), 2]] 5 1 1).1
        = (([[(1 : ℝ), 2]].countP (fun r => decide (finalPrice r ≤ 5)) : ℕ)
          / (([[(1 : ℝ), 2]] : List (List ℝ)).length : ℝ))
    ∧ 0 ≤ (calculate_probabilities [[(1 : ℝ), 2]] 5 1 1).1 :=
  ⟨(calculate_probabilities_spec [[(1 : ℝ), 2]] 5 1 1 (by simp)).1,
   (calculate_probabilities_spec [[(1 : ℝ), 2]] 5 1 1 (by simp)).2.2.1⟩

/-- C2: the Brownian-bridge touch probability returns exactly 1.0
whenever the start price ≥ barrier or the end price ≥ barrier, and
returns exactly 0.0 whenever `sigma` is below the near-zero threshold
`1e-9` and neither endpoint has crossed the barrier. -/
theorem brownian_bridge_touch_boundary (S_start S_end Barrier sigma dt : ℝ) :
    (S_start ≥ Barrier ∨ S_end ≥ Barrier →
      brownian_bridge_touch S_start S_end Barrier sigma dt = 1)
    ∧ (sigma < 1e-9 → ¬(S_start ≥ Barrier ∨ S_end ≥ Barrier) →
      brownian_bridge_touch S_start S_end Barrier sigma dt = 0) := by
  constructor
  · intro h
    simp only [brownian_bridge_touch]
    rw [if_pos h]
  · intro hs h
    simp only [brownian_bridge_touch]
    rw [if_neg h, if_pos hs]

/-- Witness for C2: with the start at 5 ≥ barrier 4 the result is 1.0;
with both endpoints at 1 < 4 and `sigma = 0` the result is 0.0. -/
theorem brownian_bridge_touch_boundary_witness :
    brownian_bridge_touch 5 3 4 1 1 = 1 ∧ brownian_bridge_touch 1 1 4 0 1 = 0 :=
  ⟨(brownian_bridge_touch_boundary 5 3 4 1 1).1 (Or.inl (by norm_num)),
   (brownian_bridge_touch_boundary 1 1 4 0 1).2 (by norm_num) (by norm_num)⟩

/-- C3 counterexample: in the two-path matrix `[[5,5],[1,1]]` with
strike 4, the first path's discrete maximum reaches the strike, yet
the returned `p_touch` is not 1.0, because the second path only
contributes its Brownian-bridge probability, which is strictly less
than 1. -/
theorem p_touch_not_one_despite_touched_path :
    pathMaxD [(5 : ℝ), 5] ≥ 4
    ∧ (calculate_probabilities [[(5 : ℝ), 5], [1, 1]] 4 1 1).2.2 ≠ 1 := by
  have hs365 : (1 : ℝ) ≤ Real.sqrt 365 := by
    rw [show (1 : ℝ) = Real.sqrt 1 from (Real.sqrt_one).symm]
    exact Real.sqrt_le_sqrt (by norm_num)
  have hns : ¬ ((1 : ℝ) * Real.sqrt 365 < 1e-9) := by
    push_neg
    rw [one_mul]
    linarith
  have hp1 : pathTouchProb [(5 : ℝ), 5] 4 (1 * Real.sqrt 365) 1 = 1 := by
    simp only [pathTouchProb]
    rw [if_pos (by norm_num [pathMaxD])]
  have hp2 : pathTouchProb [(1 : ℝ), 1] 4 (1 * Real.sqrt 365) 1
      = Real.exp (-2 * (Real.log 4 - Real.log 1) * (Real.log 4 - Real.log 1)
          / ((1 * Real.sqrt 365) ^ 2 * 1)) := by
    have hfp : finalPrice [(1 : ℝ), 1] = 1 := by simp [finalPrice]
    simp only [pathTouchProb]
    rw [if_neg (by norm_num [pathMaxD]), hfp]
    simp only [brownian_bridge_touch]
    rw [if_neg (by norm_num), if_neg hns]
  have hsq : ((1 : ℝ) * Real.sqrt 365) ^ 2 * 1 = 365 := by
    rw [one_mul, mul_one]
    exact Real.sq_sqrt (by norm_num)
  have hlog : 0 < Real.log 4 := Real.log_pos (by norm_num)
  have harg : -2 * (Real.log 4 - Real.log 1) * (Real.log 4 - Real.log 1)
      / ((1 * Real.sqrt 365) ^ 2 * 1) < 0 := by
    rw [hsq, Real.log_one, sub_zero]
    have h2 : 0 < 2 * Real.log 4 * Real.log 4 := by positivity
    nlinarith
  have hexp1 : Real.exp (-2 * (Real.log 4 - Real.log 1) * (Real.log 4 - Real.log 1)
      / ((1 * Real.sqrt 365) ^ 2 * 1)) < 1 := Real.exp_lt_one_iff.mpr harg
  refine ⟨by norm_num [pathMaxD], ?_⟩
  show bridge_loop [[(5 : ℝ), 5], [1, 1]] 4 1 (1 * Real.sqrt 365) ≠ 1
  simp only [bridge_loop, List.map_cons, List.map_nil, List.sum_cons, List.sum_nil, hp1, hp2]
  refine ne_of_lt ?_
  have hlen : ((List.length [[(5 : ℝ), 5], [1, 1]] : ℕ) : ℝ) = 2 := by norm_num
  rw [hlen, div_lt_one (by norm_num : (0 : ℝ) < 2)]
  linarith [hexp1]

/-- C3 amended: each path whose discrete maximum reaches the strike
contributes touch probability exactly 1.0; `p_touch` is the mean of
the per-path touch probabilities, so it equals 1.0 when every path's
discrete maximum is ≥ the strike (for a nonempty matrix of nonempty
paths). -/
theorem p_touch_eq_one_of_all_paths_touch (prices : List (List ℝ))
    (strike T_years vol_daily : ℝ) (hne : prices ≠ [])
    (hrows : ∀ path ∈ prices, path ≠ [])
    (htouch : ∀ path ∈ prices, pathMaxD path ≥ strike) :
    (calculate_probabilities prices strike T_years vol_daily).2.2 = 1 := by
  have hone : ∀ path ∈ prices,
      pathTouchProb path strike (vol_daily * Real.sqrt 365) T_years = 1 := by
    intro path hp
    cases path with
    | nil => exact absurd rfl (hrows [] hp)
    | cons p rest =>
      simp only [pathTouchProb]
      rw [if_pos (htouch _ hp)]
  have hn : (0 : ℝ) < (prices.length : ℝ) := by
    exact_mod_cast List.length_pos.mpr hne
  show bridge_loop prices strike T_years (vol_daily * Real.sqrt 365) = 1
  simp only [bridge_loop]
  have hsum : (prices.map
      (fun path => pathTouchProb path strike (vol_daily * Real.sqrt 365) T_years)).sum
      = (prices.length : ℝ) := by
    rw [List.sum_eq_card_nsmul _ 1 ?_, List.length_map, nsmul_eq_mul, mul_one]
    intro x hx
    obtain ⟨path, hpath, rfl⟩ := List.mem_map.mp hx
    exact hone path hpath
  rw [hsum, div_self (ne_of_gt hn)]

/-- Witness for the amended C3: a single path that touches the strike
gives `p_touch = 1`. -/
theorem p_touch_eq_one_of_all_paths_touch_witness :
    (calculate_probabilities [[(5 : ℝ)]] 4 1 1).2.2 = 1 :=
  p_touch_eq_one_of_all_paths_touch [[(5 : ℝ)]] 4 1 1 (by simp) (by simp)
    (by intro path hp; simp only [List.mem_singleton] at hp; subst hp; norm_num [pathMaxD])

/-- C8: `calculate_delta` always returns a value in `[0, 1]`; it
returns exactly 0 when the time to maturity is non-positive; when the
time to maturity is positive and the volatility non-positive it
returns the step-function limit; and in the remaining branch the `d1`
divisor `vol * sqrt(T)` is strictly positive. -/
theorem calculate_delta_spec (spot strike T r vol : ℝ) :
    (0 ≤ calculate_delta spot strike T r vol ∧ calculate_delta spot strike T r vol ≤ 1)
    ∧ (T ≤ 0 → calculate_delta spot strike T r vol = 0)
    ∧ (0 < T → vol ≤ 0 →
        calculate_delta spot strike T r vol = if spot > strike then 1 else 0)
    ∧ (0 < T → 0 < vol → 0 < vol * Real.sqrt T) := by
  refine ⟨?_, ?_, ?_, ?_⟩
  · unfold calculate_delta
    split
    · norm_num
    · split
      · split <;> norm_num
      · exact ⟨ProbabilityTheory.cdf_nonneg _ _, ProbabilityTheory.cdf_le_one _ _⟩
  · intro hT
    unfold calculate_delta
    rw [if_pos hT]
  · intro hT hv
    unfold calculate_delta
    rw [if_neg (not_le.mpr hT), if_pos hv]
  · intro hT hv
    exact mul_pos hv (Real.sqrt_pos.mpr hT)

/-- Witness for C8: expired option (T = 0) has delta 0; with zero
volatility and spot 3 above strike 1, delta is the step value 1. -/
theorem calculate_delta_spec_witness :
    calculate_delta 2 1 0 (1 / 25) 1 = 0 ∧ calculate_delta 3 1 1 (1 / 25) 0 = 1 := by
  constructor
  · exact (calculate_delta_spec 2 1 0 (1 / 25) 1).2.1 le_rfl
  · have h := (calculate_delta_spec 3 1 1 (1 / 25) 0).2.2.1 one_pos le_rfl
    rw [h, if_pos (by norm_num)]

/-- C5 (refuted; the code contradicts the spec's seeding requirement):
`simulate_paths` has no seed parameter and draws its innovations from
numpy's global RNG, so its output is not a function of the declared
inputs (horizon, path count, current price, fitted parameters): with
identical declared inputs, the two possible innovation draws `[[0]]`
and `[[100]]` yield different price matrices. -/
theorem simulate_paths_depends_on_rng_draw :
    (simulate_paths ⟨0, 0, 0, 0⟩ 1 100 [[0]]).1
      ≠ (simulate_paths ⟨0, 0, 0, 0⟩ 1 100 [[100]]).1 := by
  have hz1 : pathLogRets ⟨0, 0, 0, 0⟩ ((1 : ℝ) ^ 2) [(0 : ℝ)] = [0] := by
    simp [pathLogRets]
  have hz2 : pathLogRets ⟨0, 0, 0, 0⟩ ((1 : ℝ) ^ 2) [(100 : ℝ)] = [1] := by
    simp [pathLogRets]
  simp only [simulate_paths, List.map_cons, List.map_nil, hz1, hz2, cumsum]
  intro h
  simp only [List.cons.injEq, List.map_cons, List.map_nil] at h
  have h2 := h.1.2.1
  rw [one_pow, Real.sqrt_one] at h2
  norm_num at h2

/-- Row preparation is idempotent: a prepared row has no NaNs left,
its fallback condition can no longer fire, and `mid`, `spread`,
`rel_spread` recompute to the stored values. -/
theorem prepRow_idem (r : ChainRow) : prepRow (prepRow r) = prepRow r := by
  unfold prepRow
  by_cases hf : (r.bid.getD 0 ≤ 0 ∧ r.ask.getD 0 ≤ 0 ∧ r.lastPrice.getD 0 > 0)
  · simp only [Option.getD_some, if_pos hf, ite_self]
  · simp only [Option.getD_some, if_neg hf]

/-- C7: option-chain cleaning is idempotent — applying `clean_options`
twice with the same thresholds gives the same result as applying it
once. -/
theorem clean_options_idempotent (df : List ChainRow) (min_oi min_mid : ℚ) :
    clean_options (clean_options df min_oi min_mid) min_oi min_mid
      = clean_options df min_oi min_mid := by
  have h1 : ∀ r ∈ clean_options df min_oi min_mid, prepRow r = id r := by
    intro r hr
    obtain ⟨hr1, -⟩ := List.mem_filter.mp hr
    obtain ⟨x, -, rfl⟩ := List.mem_map.mp hr1
    exact prepRow_idem x
  have h2 : ∀ r ∈ clean_options df min_oi min_mid, keepRow min_oi min_mid r = true :=
    fun r hr => (List.mem_filter.mp hr).2
  show ((clean_options df min_oi min_mid).map prepRow).filter (keepRow min_oi min_mid)
      = clean_options df min_oi min_mid
  rw [List.map_congr_left h1, List.map_id]
  exact List.filter_eq_self.mpr h2

theorem merge_cluster_singleton (a : RawLevel) : merge_cluster [a] = a := rfl

theorem merge_cluster_strength_pos (c : List RawLevel) (hne : c ≠ [])
    (hpos : ∀ x ∈ c, 0 < x.strength) : 0 < (merge_cluster c).strength := by
  cases c with
  | nil => exact absurd rfl hne
  | cons a t =>
    cases t with
    | nil => exact hpos a (by simp)
    | cons b t2 =>
      show 0 < ((a :: b :: t2).map (fun i => i.strength)).sum
      refine List.sum_pos _ ?_ (by simp)
      intro x hx
      obtain ⟨i, hi, rfl⟩ := List.mem_map.mp hx
      exact hpos i hi

theorem strength_sum_pos (c : List RawLevel) (hne : c ≠ [])
    (hpos : ∀ x ∈ c, 0 < x.strength) : 0 < (c.map (fun i => i.strength)).sum := by
  refine List.sum_pos _ ?_ (by simpa using hne)
  intro x hx
  obtain ⟨i, hi, rfl⟩ := List.mem_map.mp hx
  exact hpos i hi

theorem le_merge_cluster_level (c : List RawLevel) (hne : c ≠ [])
    (hpos : ∀ x ∈ c, 0 < x.strength) (lo : ℚ) (hlo : ∀ x ∈ c, lo ≤ x.level) :
    lo ≤ (merge_cluster c).level := by
  cases c with
  | nil => exact absurd rfl hne
  | cons a t =>
    cases t with
    | nil => exact hlo a (by simp)
    | cons b t2 =>
      have hs := strength_sum_pos (a :: b :: t2) (by simp) hpos
      show lo ≤ ((a :: b :: t2).map (fun i => i.level * i.strength)).sum
          / ((a :: b :: t2).map (fun i => i.strength)).sum
      rw [le_div_iff₀ hs, ← List.sum_map_mul_left]
      refine List.sum_le_sum ?_
      intro i hi
      exact mul_le_mul_of_nonneg_right (hlo i hi) (le_of_lt (hpos i hi))

theorem merge_cluster_level_le (c : List RawLevel) (hne : c ≠ [])
    (hpos : ∀ x ∈ c, 0 < x.strength) (hi : ℚ) (hhi : ∀ x ∈ c, x.level ≤ hi) :
    (merge_cluster c).level ≤ hi := by
  cases c with
  | nil => exact absurd rfl hne
  | cons a t =>
    cases t with
    | nil => exact hhi a (by simp)
    | cons b t2 =>
      have hs := strength_sum_pos (a :: b :: t2) (by simp) hpos
      show ((a :: b :: t2).map (fun i => i.level * i.strength)).sum
          / ((a :: b :: t2).map (fun i => i.strength)).sum ≤ hi
      rw [div_le_iff₀ hs, ← List.sum_map_mul_left]
      refine List.sum_le_sum ?_
      intro i hi2
      have := mul_le_mul_of_nonneg_right (hhi i hi2) (le_of_lt (hpos i hi2))
      simpa [mul_comm] using this

theorem merge_cluster_level_pos (c : List RawLevel) (hne : c ≠ [])
    (hpos : ∀ x ∈ c, 0 < x.level ∧ 0 < x.strength) : 0 < (merge_cluster c).level := by
  cases c with
  | nil => exact absurd rfl hne
  | cons a t =>
    cases t with
    | nil => exact (hpos a (by simp)).1
    | cons b t2 =>
      have hs := strength_sum_pos (a :: b :: t2) (by simp) (fun x hx => (hpos x hx).2)
      show 0 < ((a :: b :: t2).map (fun i => i.level * i.strength)).sum
          / ((a :: b :: t2).map (fun i => i.strength)).sum
      refine div_pos ?_ hs
      refine List.sum_pos _ ?_ (by simp)
      intro x hx
      obtain ⟨i, hi, rfl⟩ := List.mem_map.mp hx
      exact mul_pos (hpos i hi).1 (hpos i hi).2

/-- In a level-sorted list, the head's level bounds every member from
below. -/
theorem sorted_head_le {a : RawLevel} {t : List RawLevel}
    (h : List.Pairwise levelLeP (a :: t)) {x : RawLevel} (hx : x ∈ a :: t) :
    a.level ≤ x.level := by
  rcases List.mem_cons.mp hx with rfl | hx
  · exact le_refl _
  · exact (List.pairwise_cons.mp h).1 x hx

/-- In a level-sorted list, the last element's level bounds every
member from above. -/
theorem sorted_le_getLast : ∀ (l : List RawLevel), List.Pairwise levelLeP l →
    ∀ (hne : l ≠ []) (x : RawLevel), x ∈ l → x.level ≤ (l.getLast hne).level := by
  intro l
  induction l with
  | nil => intro _ hne; exact absurd rfl hne
  | cons a t ih =>
    intro h hne x hx
    cases t with
    | nil =>
      rcases List.mem_cons.mp hx with rfl | hx
      · exact le_refl _
      · exact absurd hx (by simp)
    | cons b t2 =>
      rw [List.getLast_cons (by simp)]
      rcases List.mem_cons.mp hx with rfl | hx
      · exact sorted_head_le h (List.mem_cons_of_mem _ (List.getLast_mem (by simp)))
      · exact ih (List.pairwise_cons.mp h).2 (by simp) x hx

/-- A positive-level chain with all relative gaps above `zw ≥ 0` is
sorted by level. -/
theorem chainGap_pairwise {zw : ℚ} (hzw : 0 ≤ zw) :
    ∀ (l : List RawLevel), (∀ x ∈ l, 0 < x.level) → List.Chain' (gapGT zw) l →
      List.Pairwise levelLeP l := by
  intro l
  induction l with
  | nil => intro _ _; exact List.Pairwise.nil
  | cons a t ih =>
    intro hpos hchain
    cases t with
    | nil => exact List.pairwise_singleton _ _
    | cons b t2 =>
      rw [List.chain'_cons] at hchain
      have ha := hpos a (by simp)
      have hab : a.level < b.level := by
        have h1 := (lt_div_iff₀ ha).mp hchain.1
        have h2 : 0 ≤ zw * a.level := mul_nonneg hzw (le_of_lt ha)
        linarith
      have hp := ih (fun x hx => hpos x (by simp [hx])) hchain.2
      rw [List.pairwise_cons]
      refine ⟨?_, hp⟩
      intro x hx
      rcases List.mem_cons.mp hx with rfl | hx
      · exact le_of_lt hab
      · exact le_trans (le_of_lt hab) ((List.pairwise_cons.mp hp).1 x hx)

/-- When every consecutive relative gap exceeds the zone width, the
greedy loop groups every level into its own singleton cluster. -/
theorem clusterLoop_of_separated (zw : ℚ) :
    ∀ (rest : List RawLevel) (x : RawLevel), List.Chain' (gapGT zw) (x :: rest) →
      clusterLoop zw [x] rest = (x :: rest).map (fun a => [a]) := by
  intro rest
  induction rest with
  | nil => intro x _; rfl
  | cons curr rest2 ih =>
    intro x h
    rw [List.chain'_cons] at h
    have hstep : clusterLoop zw [x] (curr :: rest2)
        = [x].reverse :: clusterLoop zw [curr] rest2 := by
      simp only [clusterLoop]
      rw [if_neg (not_le.mpr h.1)]
    rw [hstep, List.reverse_singleton, ih curr h.2]
    rfl

/-- Invariant of the greedy loop: starting from a nonempty reversed
cluster whose flattening with the remaining input is level-sorted and
positive, the merged output is positive, consecutive merged levels
keep relative gaps above the zone width, and the first merged level is
bounded below by the earliest member of the open cluster. -/
theorem clusterLoop_invariant (zw : ℚ) (hzw : 0 ≤ zw) :
    ∀ (rest revCur : List RawLevel), revCur ≠ [] →
      (∀ x ∈ revCur ++ rest, 0 < x.level ∧ 0 < x.strength) →
      List.Pairwise levelLeP (revCur.reverse ++ rest) →
      (∀ y ∈ (clusterLoop zw revCur rest).map merge_cluster, 0 < y.level ∧ 0 < y.strength)
      ∧ List.Chain' (gapGT zw) ((clusterLoop zw revCur rest).map merge_cluster)
      ∧ ∃ h2 t2, (clusterLoop zw revCur rest).map merge_cluster = h2 :: t2
          ∧ ∀ (hne : revCur ≠ []), (revCur.getLast hne).level ≤ h2.level := by
  intro rest
  induction rest with
  | nil =>
    intro revCur hne hpos hsort
    have hrevne : revCur.reverse ≠ [] := by simpa using hne
    have hpos' : ∀ x ∈ revCur.reverse, 0 < x.level ∧ 0 < x.strength := by
      intro x hx
      exact hpos x (by simpa using List.mem_reverse.mp hx)
    have hsort' : List.Pairwise levelLeP revCur.reverse := by simpa using hsort
    refine ⟨?_, ?_, merge_cluster revCur.reverse, [], rfl, ?_⟩
    · intro y hy
      simp only [clusterLoop, List.map_cons, List.map_nil, List.mem_singleton] at hy
      subst hy
      exact ⟨merge_cluster_level_pos _ hrevne hpos',
             merge_cluster_strength_pos _ hrevne (fun x hx => (hpos' x hx).2)⟩
    · exact List.chain'_singleton _
    · intro hne2
      refine le_merge_cluster_level _ hrevne (fun x hx => (hpos' x hx).2) _ ?_
      intro x hx
      have hh : revCur.reverse.head hrevne = revCur.getLast hne2 := List.head_reverse hrevne
      have hhead := (List.head_cons_tail revCur.reverse hrevne).symm
      rw [hh] at hhead
      rw [hhead] at hsort' hx
      exact sorted_head_le hsort' hx
  | cons curr rest2 ih =>
    intro revCur hne hpos hsort
    cases revCur with
    | nil => exact absurd rfl hne
    | cons prev rtl =>
      by_cases hc : (curr.level - prev.level) / prev.level ≤ zw
      · have hstep : clusterLoop zw (prev :: rtl) (curr :: rest2)
            = clusterLoop zw (curr :: prev :: rtl) rest2 := by
          simp only [clusterLoop]
          rw [if_pos hc]
        rw [hstep]
        have hpos2 : ∀ x ∈ (curr :: prev :: rtl) ++ rest2, 0 < x.level ∧ 0 < x.strength := by
          intro x hx
          apply hpos
          simp only [List.mem_append, List.mem_cons] at hx ⊢
          tauto
        have hsort2 : List.Pairwise levelLeP ((curr :: prev :: rtl).reverse ++ rest2) := by
          rw [List.reverse_cons, List.append_assoc]
          simpa using hsort
        obtain ⟨hposO, hchainO, h2, t2, hout, hhd⟩ :=
          ih (curr :: prev :: rtl) (by simp) hpos2 hsort2
        refine ⟨hposO, hchainO, h2, t2, hout, ?_⟩
        intro hne2
        have hlast := hhd (by simp)
        rwa [List.getLast_cons (by simp)] at hlast
      · have hstep : clusterLoop zw (prev :: rtl) (curr :: rest2)
            = (prev :: rtl).reverse :: clusterLoop zw [curr] rest2 := by
          simp only [clusterLoop]
          rw [if_neg hc]
        have hpos2 : ∀ x ∈ [curr] ++ rest2, 0 < x.level ∧ 0 < x.strength := by
          intro x hx
          apply hpos
          simp only [List.mem_append, List.mem_cons, List.mem_singleton,
            List.not_mem_nil, or_false] at hx ⊢
          tauto
        have hsort2 : List.Pairwise levelLeP ([curr].reverse ++ rest2) := by
          simp only [List.reverse_singleton, List.singleton_append]
          exact List.Pairwise.sublist (List.sublist_append_right _ _) hsort
        obtain ⟨hposO, hchainO, h2, t2, hout, hhd⟩ := ih [curr] (by simp) hpos2 hsort2
        rw [hstep, List.map_cons, hout]
        rw [hout] at hposO hchainO
        have hcurrhd : curr.level ≤ h2.level := by simpa using hhd (by simp)
        have hprev : 0 < prev.level := (hpos prev (by simp)).1
        have hrevne : (prev :: rtl).reverse ≠ [] := by simp
        have hposRev : ∀ x ∈ (prev :: rtl).reverse, 0 < x.level ∧ 0 < x.strength := by
          intro x hx
          simp only [List.mem_reverse] at hx
          exact hpos x (List.mem_append_left _ hx)
        have hsortRev : List.Pairwise levelLeP (prev :: rtl).reverse :=
          List.Pairwise.sublist (List.sublist_append_left _ _) hsort
        have hmle : (merge_cluster (prev :: rtl).reverse).level ≤ prev.level := by
          refine merge_cluster_level_le _ hrevne (fun x hx => (hposRev x hx).2) _ ?_
          intro x hx
          have hgl : ((prev :: rtl).reverse.getLast hrevne) = prev := by
            rw [List.getLast_reverse]
            rfl
          have hxle := sorted_le_getLast _ hsortRev hrevne x hx
          rwa [hgl] at hxle
        have hmpos : 0 < (merge_cluster (prev :: rtl).reverse).level :=
          merge_cluster_level_pos _ hrevne hposRev
        have hspos : 0 < (merge_cluster (prev :: rtl).reverse).strength :=
          merge_cluster_strength_pos _ hrevne (fun x hx => (hposRev x hx).2)
        have hgapPC : zw * prev.level < curr.level - prev.level :=
          (lt_div_iff₀ hprev).mp (not_le.mp hc)
        have hgapm : gapGT zw (merge_cluster (prev :: rtl).reverse) h2 := by
          unfold gapGT
          rw [lt_div_iff₀ hmpos]
          have h5 : zw * (merge_cluster (prev :: rtl).reverse).level ≤ zw * prev.level :=
            mul_le_mul_of_nonneg_left hmle hzw
          linarith
        refine ⟨?_, ?_, merge_cluster (prev :: rtl).reverse, h2 :: t2, rfl, ?_⟩
        · intro y hy
          rcases List.mem_cons.mp hy with rfl | hy
          · exact ⟨hmpos, hspos⟩
          · exact hposO y hy
        · rw [List.chain'_cons]
          exact ⟨hgapm, hchainO⟩
        · intro hne2
          refine le_merge_cluster_level _ hrevne (fun x hx => (hposRev x hx).2) _ ?_
          intro x hx
          have hh : (prev :: rtl).reverse.head hrevne = (prev :: rtl).getLast hne2 :=
            List.head_reverse hrevne
          have hhead := (List.head_cons_tail (prev :: rtl).reverse hrevne).symm
          rw [hh] at hhead
          rw [hhead] at hsortRev hx
          exact sorted_head_le hsortRev hx

theorem levelLe_trans : ∀ (a b c : RawLevel), levelLe a b → levelLe b c → levelLe a c := by
  intro a b c hab hbc
  simp only [levelLe, decide_eq_true_eq] at hab hbc ⊢
  exact le_trans hab hbc

theorem levelLe_total : ∀ (a b : RawLevel), levelLe a b || levelLe b a := by
  intro a b
  simp only [levelLe]
  rcases le_total a.level b.level with h | h <;> simp [h]

theorem pairwise_levelLe_iff (l : List RawLevel) :
    List.Pairwise (fun a b => levelLe a b) l ↔ List.Pairwise levelLeP l := by
  constructor
  · intro h
    exact h.imp (fun hab => of_decide_eq_true hab)
  · intro h
    refine h.imp (fun hab => ?_)
    simp only [levelLe, decide_eq_true_eq]
    exact hab

/-- The clustering step produces a positive, gap-separated list. -/
theorem detect_resistance_cluster_spec (lvls : List RawLevel) (zw : ℚ)
    (hpos : ∀ x ∈ lvls, 0 < x.level ∧ 0 < x.strength) (hzw : 0 ≤ zw) :
    (∀ y ∈ detect_resistance_cluster lvls zw, 0 < y.level ∧ 0 < y.strength)
    ∧ List.Chain' (gapGT zw) (detect_resistance_cluster lvls zw) := by
  cases hs : lvls.mergeSort levelLe with
  | nil =>
    have hdef : detect_resistance_cluster lvls zw = [] := by
      unfold detect_resistance_cluster
      rw [hs]
    rw [hdef]
    exact ⟨by simp, List.chain'_nil⟩
  | cons first rest =>
    have hdef : detect_resistance_cluster lvls zw
        = ((clusterLoop zw [first] rest).map merge_cluster).mergeSort levelLe := by
      unfold detect_resistance_cluster
      rw [hs]
    have hsorted : List.Pairwise levelLeP (first :: rest) := by
      rw [← hs]
      exact (pairwise_levelLe_iff _).mp
        (List.sorted_mergeSort levelLe_trans levelLe_total lvls)
    have hposS : ∀ x ∈ (first :: rest), 0 < x.level ∧ 0 < x.strength := by
      intro x hx
      apply hpos
      have hx2 : x ∈ lvls.mergeSort levelLe := by
        rw [hs]
        exact hx
      exact List.mem_mergeSort.mp hx2
    obtain ⟨hposO, hchainO, -⟩ :=
      clusterLoop_invariant zw hzw rest [first] (by simp)
        (by simpa using hposS) (by simpa using hsorted)
    have hpw : List.Pairwise levelLeP ((clusterLoop zw [first] rest).map merge_cluster) :=
      chainGap_pairwise hzw _ (fun x hx => (hposO x hx).1) hchainO
    rw [hdef, List.mergeSort_of_sorted ((pairwise_levelLe_iff _).mpr hpw)]
    exact ⟨hposO, hchainO⟩

/-- A positive, gap-separated list is a fixed point of the clustering
step. -/
theorem detect_resistance_cluster_fixpoint (l : List RawLevel) (zw : ℚ)
    (hpos : ∀ x ∈ l, 0 < x.level ∧ 0 < x.strength) (hzw : 0 ≤ zw)
    (hchain : List.Chain' (gapGT zw) l) :
    detect_resistance_cluster l zw = l := by
  have hpw : List.Pairwise levelLeP l :=
    chainGap_pairwise hzw l (fun x hx => (hpos x hx).1) hchain
  have hms : l.mergeSort levelLe = l :=
    List.mergeSort_of_sorted ((pairwise_levelLe_iff _).mpr hpw)
  unfold detect_resistance_cluster
  rw [hms]
  cases l with
  | nil => rfl
  | cons first rest =>
    show ((clusterLoop zw [first] rest).map merge_cluster).mergeSort levelLe = first :: rest
    rw [clusterLoop_of_separated zw rest first hchain, List.map_map]
    have hcomp : merge_cluster ∘ (fun a => [a]) = id := by
      funext a
      simp [merge_cluster_singleton, Function.comp]
    rw [hcomp, List.map_id]
    exact hms

/-- C6: resistance clustering is idempotent — re-running the
sort-and-greedy-merge clustering step on an already-clustered set of
levels (positive levels and strengths, non-negative zone width) with
the same `zone_width` returns the same levels, strengths and labels. -/
theorem detect_resistance_cluster_idempotent (lvls : List RawLevel) (zw : ℚ)
    (hpos : ∀ x ∈ lvls, 0 < x.level ∧ 0 < x.strength) (hzw : 0 ≤ zw) :
    detect_resistance_cluster (detect_resistance_cluster lvls zw) zw
      = detect_resistance_cluster lvls zw := by
  obtain ⟨hposO, hchainO⟩ := detect_resistance_cluster_spec lvls zw hpos hzw
  exact detect_resistance_cluster_fixpoint _ zw hposO hzw hchainO

/-- Witness for C6: idempotence on a concrete three-level set with the
default zone width 0.01. -/
theorem detect_resistance_cluster_idempotent_witness :
    detect_resistance_cluster (detect_resistance_cluster sampleLevels (1/100)) (1/100)
      = detect_resistance_cluster sampleLevels (1/100) :=
  detect_resistance_cluster_idempotent sampleLevels (1/100)
    (by
      intro x hx
      simp only [sampleLevels, List.mem_cons, List.not_mem_nil, or_false] at hx
      rcases hx with rfl | rfl | rfl <;> constructor <;> norm_num)
    (by norm_num)

/-- The running best of the score fold is one of the candidates. -/
theorem foldl_best_mem : ∀ (l : List Candidate) (c : Candidate),
    l.foldl (fun b x => if x.score > b.score then x else b) c ∈ c :: l := by
  intro l
  induction l with
  | nil => intro c; simp
  | cons x t ih =>
    intro c
    simp only [List.foldl_cons]
    rcases List.mem_cons.mp (ih (if x.score > c.score then x else c)) with h2 | h2
    · rw [h2]
      by_cases h : x.score > c.score
      · rw [if_pos h]
        exact List.mem_cons_of_mem _ (List.mem_cons_self _ _)
      · rw [if_neg h]
        exact List.mem_cons_self _ _
    · exact List.mem_cons_of_mem _ (List.mem_cons_of_mem _ h2)

/-- The running best of the score fold dominates every candidate. -/
theorem foldl_best_le : ∀ (l : List Candidate) (c : Candidate) (y : Candidate),
    y ∈ c :: l →
    y.score ≤ (l.foldl (fun b x => if x.score > b.score then x else b) c).score := by
  intro l
  induction l with
  | nil =>
    intro c y hy
    simp only [List.foldl_nil]
    rcases List.mem_cons.mp hy with rfl | h
    · exact le_refl _
    · exact absurd h (by simp)
  | cons x t ih =>
    intro c y hy
    simp only [List.foldl_cons]
    have hacc : c.score ≤ (if x.score > c.score then x else c).score := by
      by_cases h : x.score > c.score
      · rw [if_pos h]
        exact le_of_lt h
      · rw [if_neg h]
    have hx : x.score ≤ (if x.score > c.score then x else c).score := by
      by_cases h : x.score > c.score
      · rw [if_pos h]
      · rw [if_neg h]
        exact not_lt.mp h
    rcases List.mem_cons.mp hy with rfl | h2
    · exact le_trans hacc (ih _ _ (List.mem_cons_self _ _))
    · rcases List.mem_cons.mp h2 with rfl | h3
      · exact le_trans hx (ih _ _ (List.mem_cons_self _ _))
      · exact ih _ y (List.mem_cons_of_mem _ h3)

/-- An accepted candidate records the resistance level and strength it
was scored against, its own strike, and the distance to resistance. -/
theorem processRow_some_fields (config : StratConfig) (spot res_level res_strength : ℝ)
    (p_otm_dict : ℝ → Option (ℝ × ℝ × ℝ)) (svi_params : Option SviParams)
    (row : OptRow) (c : Candidate)
    (h : processRow config spot res_level res_strength p_otm_dict svi_params row = some c) :
    c.resistance = res_level ∧ c.res_strength = res_strength
    ∧ c.strike = row.strike ∧ c.dist_res = |c.strike - res_level| := by
  unfold processRow at h
  repeat' split at h
  all_goals try simp_all
  all_goals obtain ⟨-, -, rfl⟩ := h
  all_goals exact ⟨rfl, rfl, rfl, rfl⟩

/-- With at least one call row, the candidate list is the filterMap of
the per-row gate pipeline over the call rows, scored against the
picked resistance level. -/
theorem passingCandidates_eq (df_opts : List OptRow)
    (p_otm_dict : ℝ → Option (ℝ × ℝ × ℝ)) (resistance_df : List ResRow)
    (config : StratConfig) (svi_params : Option SviParams)
    (c0 : OptRow) (tl : List OptRow)
    (hct : df_opts.filter (fun r => r.side == "call") = c0 :: tl) :
    passingCandidates df_opts p_otm_dict resistance_df config svi_params
      = (c0 :: tl).filterMap
          (processRow config c0.underlying_price
            (resPick resistance_df c0.underlying_price).1
            (resPick resistance_df c0.underlying_price).2 p_otm_dict svi_params) := by
  unfold passingCandidates
  rw [hct]

/-- With at least one call row, `select_strike` returns `ok` of the
best passing candidate. -/
theorem select_strike_eq_ok (df_opts : List OptRow)
    (p_otm_dict : ℝ → Option (ℝ × ℝ × ℝ)) (resistance_df : List ResRow)
    (config : StratConfig) (svi_params : Option SviParams)
    (c0 : OptRow) (tl : List OptRow)
    (hct : df_opts.filter (fun r => r.side == "call") = c0 :: tl) :
    select_strike df_opts p_otm_dict resistance_df config svi_params
      = Except.ok (bestCandidate
          (passingCandidates df_opts p_otm_dict resistance_df config svi_params)) := by
  have hdf : df_opts ≠ [] := by
    intro h
    subst h
    simp at hct
  unfold select_strike
  rw [if_neg hdf, hct]

/-- C4 amended: provided the option slice contains at least one call
quote, `select_strike` returns `None` exactly when no candidate strike
passes all gates, otherwise it returns (without raising) a passing
candidate — which carries every intermediate quantity by construction
— whose score is maximal among all passing candidates. -/
theorem select_strike_spec (df_opts : List OptRow)
    (p_otm_dict : ℝ → Option (ℝ × ℝ × ℝ)) (resistance_df : List ResRow)
    (config : StratConfig) (svi_params : Option SviParams)
    (hcalls : df_opts.filter (fun r => r.side == "call") ≠ []) :
    (select_strike df_opts p_otm_dict resistance_df config svi_params = Except.ok none
      ↔ passingCandidates df_opts p_otm_dict resistance_df config svi_params = [])
    ∧ (∀ c, select_strike df_opts p_otm_dict resistance_df config svi_params
          = Except.ok (some c) →
        c ∈ passingCandidates df_opts p_otm_dict resistance_df config svi_params
        ∧ ∀ c2 ∈ passingCandidates df_opts p_otm_dict resistance_df config svi_params,
            c2.score ≤ c.score)
    ∧ ∃ r, select_strike df_opts p_otm_dict resistance_df config svi_params
        = Except.ok r := by
  obtain ⟨c0, tl, hct⟩ : ∃ c0 tl,
      df_opts.filter (fun r => r.side == "call") = c0 :: tl := by
    cases hc : df_opts.filter (fun r => r.side == "call") with
    | nil => exact absurd hc hcalls
    | cons a b => exact ⟨a, b, rfl⟩
  have hsel := select_strike_eq_ok df_opts p_otm_dict resistance_df config svi_params
    c0 tl hct
  refine ⟨?_, ?_, ⟨_, hsel⟩⟩
  · rw [hsel]
    constructor
    · intro h
      have hb : bestCandidate
          (passingCandidates df_opts p_otm_dict resistance_df config svi_params)
          = none := by
        injection h
      cases hp : passingCandidates df_opts p_otm_dict resistance_df config svi_params with
      | nil => rfl
      | cons a b =>
        rw [hp] at hb
        simp [bestCandidate] at hb
    · intro h
      rw [h]
      rfl
  · intro c hc2
    rw [hsel] at hc2
    have hb : bestCandidate
        (passingCandidates df_opts p_otm_dict resistance_df config svi_params)
        = some c := by
      injection hc2
    cases hp : passingCandidates df_opts p_otm_dict resistance_df config svi_params with
    | nil =>
      rw [hp] at hb
      simp [bestCandidate] at hb
    | cons a b =>
      rw [hp] at hb
      simp only [bestCandidate, Option.some.injEq] at hb
      subst hb
      constructor
      · exact foldl_best_mem b a
      · intro c2 hc3
        exact foldl_best_le b a c2 hc3

/-- Witness for the amended C4: on a one-call slice the `None` case is
characterized by the empty candidate list and no exception occurs. -/
theorem select_strike_spec_witness :
    (select_strike [wRow] wDict [] wCfg none = Except.ok none
      ↔ passingCandidates [wRow] wDict [] wCfg none = [])
    ∧ ∃ r, select_strike [wRow] wDict [] wCfg none = Except.ok r :=
  ⟨(select_strike_spec [wRow] wDict [] wCfg none (by simp [wRow])).1,
   (select_strike_spec [wRow] wDict [] wCfg none (by simp [wRow])).2.2⟩

/-- C4 counterexample: a nonempty slice containing only a put — a
no-candidate case, since only calls can become candidates — makes
`select_strike` raise (`calls['underlying_price'].iloc[0]` on an empty
frame) instead of returning `None`. -/
theorem select_strike_raises_on_put_only_slice :
    passingCandidates [pRow] wDict [] wCfg none = []
    ∧ select_strike [pRow] wDict [] wCfg none
        = Except.error "single positional indexer is out-of-bounds" := by
  have hfil : ([pRow].filter (fun r => r.side == "call")) = [] := by
    simp [pRow]
  constructor
  · unfold passingCandidates
    rw [hfil]
  · unfold select_strike
    rw [if_neg (by simp), hfil]

/-- C9: with at least one call row, `select_strike` does not raise;
when no resistance level lies strictly above spot every passing
candidate is scored against the synthetic level `spot * 1.10` with
strength 1.0 (and its resistance distance is still computed);
otherwise the first level above spot is used, which is the lowest such
level when the resistance frame is sorted ascending. -/
theorem select_strike_resistance_fallback (df_opts : List OptRow)
    (p_otm_dict : ℝ → Option (ℝ × ℝ × ℝ)) (resistance_df : List ResRow)
    (config : StratConfig) (svi_params : Option SviParams)
    (c0 : OptRow) (tl : List OptRow)
    (hct : df_opts.filter (fun r => r.side == "call") = c0 :: tl) :
    (∃ r, select_strike df_opts p_otm_dict resistance_df config svi_params = Except.ok r)
    ∧ (resistance_df.filter (fun r => decide (r.level > c0.underlying_price)) = [] →
        ∀ c ∈ passingCandidates df_opts p_otm_dict resistance_df config svi_params,
          c.resistance = c0.underlying_price * 1.10 ∧ c.res_strength = 1.0
          ∧ c.dist_res = |c.strike - c.resistance|)
    ∧ (∀ r1 rs, resistance_df.filter (fun r => decide (r.level > c0.underlying_price))
          = r1 :: rs →
        (∀ c ∈ passingCandidates df_opts p_otm_dict resistance_df config svi_params,
          c.resistance = r1.level ∧ c.res_strength = r1.strength)
        ∧ (List.Pairwise (fun a b : ResRow => a.level ≤ b.level) resistance_df →
            ∀ r2 ∈ resistance_df, r2.level > c0.underlying_price →
              r1.level ≤ r2.level)) := by
  refine ⟨⟨_, select_strike_eq_ok df_opts p_otm_dict resistance_df config svi_params
      c0 tl hct⟩, ?_, ?_⟩
  · intro hres c hc
    rw [passingCandidates_eq df_opts p_otm_dict resistance_df config svi_params
      c0 tl hct] at hc
    have hrp : resPick resistance_df c0.underlying_price
        = (c0.underlying_price * 1.10, 1.0) := by
      unfold resPick
      rw [hres]
    rw [hrp] at hc
    obtain ⟨a, ha, hpa⟩ := List.mem_filterMap.mp hc
    obtain ⟨h1, h2, h3, h4⟩ := processRow_some_fields _ _ _ _ _ _ _ _ hpa
    exact ⟨h1, h2, by rw [h4, h1]⟩
  · intro r1 rs hres
    have hrp : resPick resistance_df c0.underlying_price = (r1.level, r1.strength) := by
      unfold resPick
      rw [hres]
    constructor
    · intro c hc
      rw [passingCandidates_eq df_opts p_otm_dict resistance_df config svi_params
        c0 tl hct, hrp] at hc
      obtain ⟨a, ha, hpa⟩ := List.mem_filterMap.mp hc
      obtain ⟨h1, h2, -, -⟩ := processRow_some_fields _ _ _ _ _ _ _ _ hpa
      exact ⟨h1, h2⟩
    · intro hsorted r2 hr2 hr2gt
      have hmem : r2 ∈ r1 :: rs := by
        rw [← hres]
        exact List.mem_filter.mpr ⟨hr2, by simpa using hr2gt⟩
      have hpf : List.Pairwise (fun a b : ResRow => a.level ≤ b.level)
          (resistance_df.filter (fun r => decide (r.level > c0.underlying_price))) :=
        hsorted.filter _
      rw [hres] at hpf
      rcases List.mem_cons.mp hmem with rfl | h
      · exact le_refl _
      · exact (List.pairwise_cons.mp hpf).1 r2 h

/-- Witness for C9: a one-call slice with an empty resistance frame
returns without raising, and every passing candidate carries the
synthetic resistance level `100 * 1.10` with strength 1.0. -/
theorem select_strike_resistance_fallback_witness :
    (∃ r, select_strike [wRow] wDict [] wCfg none = Except.ok r)
    ∧ (∀ c ∈ passingCandidates [wRow] wDict [] wCfg none,
        c.resistance = wRow.underlying_price * 1.10 ∧ c.res_strength = 1.0
        ∧ c.dist_res = |c.strike - c.resistance|) := by
  have h := select_strike_resistance_fallback [wRow] wDict [] wCfg none wRow []
    (by simp [wRow])
  exact ⟨h.1, h.2.1 rfl⟩

/-- Flooring `dte` at 1 before the pipeline changes nothing for one
row: the pipeline itself floors `dte` at 1 (both in the annualized
yield `365/dte` and in the year fraction `dte/365` fed to delta). -/
theorem processRow_floorDte (config : StratConfig) (spot res_level res_strength : ℝ)
    (p_otm_dict : ℝ → Option (ℝ × ℝ × ℝ)) (svi_params : Option SviParams)
    (row : OptRow) :
    processRow config spot res_level res_strength p_otm_dict svi_params (floorDte row)
      = processRow config spot res_level res_strength p_otm_dict svi_params row := by
  unfold processRow floorDte
  simp only [max_assoc, max_self]

/-- The call filter commutes with dte flooring. -/
theorem filter_call_map_floorDte (df_opts : List OptRow) :
    (df_opts.map floorDte).filter (fun r => r.side == "call")
      = (df_opts.filter (fun r => r.side == "call")).map floorDte := by
  rw [List.filter_map]
  congr 1

/-- The candidate list is invariant under flooring every row's dte. -/
theorem passingCandidates_floorDte (df_opts : List OptRow)
    (p_otm_dict : ℝ → Option (ℝ × ℝ × ℝ)) (resistance_df : List ResRow)
    (config : StratConfig) (svi_params : Option SviParams) :
    passingCandidates (df_opts.map floorDte) p_otm_dict resistance_df config svi_params
      = passingCandidates df_opts p_otm_dict resistance_df config svi_params := by
  cases hct : df_opts.filter (fun r => r.side == "call") with
  | nil =>
    have h2 : (df_opts.map floorDte).filter (fun r => r.side == "call") = [] := by
      rw [filter_call_map_floorDte, hct]
      rfl
    unfold passingCandidates
    rw [h2, hct]
  | cons c0 tl =>
    have h2 : (df_opts.map floorDte).filter (fun r => r.side == "call")
        = floorDte c0 :: tl.map floorDte := by
      rw [filter_call_map_floorDte, hct]
      rfl
    rw [passingCandidates_eq _ p_otm_dict resistance_df config svi_params _ _ h2,
      passingCandidates_eq _ p_otm_dict resistance_df config svi_params _ _ hct]
    have hup : (floorDte c0).underlying_price = c0.underlying_price := rfl
    rw [hup]
    rw [show (floorDte c0 :: List.map floorDte tl) = (c0 :: tl).map floorDte from rfl]
    rw [List.filterMap_map]
    congr 1
    funext r
    exact processRow_floorDte config c0.underlying_price _ _ p_otm_dict svi_params r

/-- C10: `select_strike` floors days-to-expiry at 1 before both the
annualized-yield division `365/dte` and the delta year fraction
`dte/365`: replacing every row's dte by `max(dte, 1)` leaves the
result unchanged, so a quote with zero or negative days-to-expiry is
scored exactly as a one-day quote and the divisions never see a
non-positive dte. -/
theorem select_strike_floors_dte (df_opts : List OptRow)
    (p_otm_dict : ℝ → Option (ℝ × ℝ × ℝ)) (resistance_df : List ResRow)
    (config : StratConfig) (svi_params : Option SviParams) :
    select_strike (df_opts.map floorDte) p_otm_dict resistance_df config svi_params
      = select_strike df_opts p_otm_dict resistance_df config svi_params := by
  by_cases hdf : df_opts = []
  · subst hdf
    rfl
  · have hdf2 : df_opts.map floorDte ≠ [] := by simpa using hdf
    cases hct : df_opts.filter (fun r => r.side == "call") with
    | nil =>
      have h2 : (df_opts.map floorDte).filter (fun r => r.side == "call") = [] := by
        rw [filter_call_map_floorDte, hct]
        rfl
      unfold select_strike
      rw [if_neg hdf, if_neg hdf2, hct, h2]
    | cons c0 tl =>
      have h2 : (df_opts.map floorDte).filter (fun r => r.side == "call")
          = floorDte c0 :: tl.map floorDte := by
        rw [filter_call_map_floorDte, hct]
        rfl
      rw [select_strike_eq_ok _ p_otm_dict resistance_df config svi_params _ _ h2,
        select_strike_eq_ok _ p_otm_dict resistance_df config svi_params _ _ hct,
        passingCandidates_floorDte]

end CoveredCalls
